import Mathlib

/-!
A shallow embedding, in Lean, of the configuration-resolution and
reconciliation engine of the `meta` package-manager manager
(`src/main.rs`).  Rust strings are Lean `String`s; `HashSet<String>` is
`Finset String`; `Vec<String>` is `List String`; fallible functions
return `Except String _`; the external shell is an oracle
`ok : String → Bool` giving each spawned command's exit status, and
command execution is modelled as the list of command strings issued, in
order, together with the overall success flag.
-/

/-! ### String primitives

Structural models of the Rust string operations the source uses:
`str::contains` (substring test), `str::replace` (replace every
non-overlapping occurrence, left to right), `str::split('\n')`, and
`[String]::join`.  `replaceFuel` uses an explicit fuel argument (the
length of the subject string) so that it is structurally recursive and
kernel-evaluable; with fuel ≥ length of the subject it implements
Rust's `str::replace`. -/

def isPre : List Char → List Char → Bool
  | [], _ => true
  | _ :: _, [] => false
  | a :: ps, b :: ss => a = b && isPre ps ss

def containsAux : List Char → List Char → Bool
  | [], pat => pat.isEmpty
  | s@(_ :: rest), pat => isPre pat s || containsAux rest pat

/-- Model of Rust `str::contains` with a literal (substring) pattern. -/
def strContains (s pat : String) : Bool := containsAux s.data pat.data

def replaceFuel (pat r : List Char) : Nat → List Char → List Char
  | _, [] => []
  | 0, s => s
  | fuel + 1, c :: rest =>
    if isPre pat (c :: rest) && !pat.isEmpty then
      r ++ replaceFuel pat r fuel (rest.drop (pat.length - 1))
    else c :: replaceFuel pat r fuel rest

/-- Model of Rust `str::replace` (every non-overlapping occurrence of
`pat` in `s` replaced by `r`, scanning left to right). -/
def strReplace (s pat r : String) : String :=
  String.mk (replaceFuel pat.data r.data s.data.length s.data)

def splitNlAux : List Char → List Char → List (List Char)
  | acc, [] => [acc.reverse]
  | acc, c :: rest =>
    if c = '\n' then acc.reverse :: splitNlAux [] rest else splitNlAux (c :: acc) rest

/-- Model of Rust `str::split('\n')`: splits at every newline, keeping
empty pieces (between consecutive newlines, and after a final trailing
newline). -/
def splitNl (s : String) : List String := (splitNlAux [] s.data).map String.mk

/-- Model of Rust `[String]::join(sep)`. -/
def strJoin (sep : String) : List String → String
  | [] => ""
  | [item] => item
  | item :: rest => item ++ sep ++ strJoin sep rest

/-! ### The `Manager` record (src/main.rs, `struct Manager`)

Field-for-field translation of the Rust struct.  The `serde(default)`
defaults of the Rust derive appear as Lean default field values.
`items` models the `HashSet<String>` as a `Finset String`;
`items_to_add` / `items_to_remove` model the `Vec<String>`s. -/

structure Manager where
  name : String := ""
  add : String
  remove : String
  list : String
  upgrade : Option String := none
  remove_then_add : Bool := false
  items_separator : Option String := none
  items : Finset String := ∅
  items_to_add : List String := []
  items_to_remove : List String := []
deriving DecidableEq

/-! ### TOML values and manager deserialization

`TomlValue` models the `toml::Value` type of the `toml` crate (the
float and datetime payloads are irrelevant to every control path
modelled here, so they are opaque).  `deserializeManager` models what
`toml::from_str::<Manager>` does given the struct's serde attributes:
`deny_unknown_fields` rejects any key that is not a declared field,
`add`/`remove`/`list` are required, everything else is optional with
its `serde(default)` default. -/

inductive TomlValue where
  | str (s : String)
  | int (n : Int)
  | boolean (b : Bool)
  | float
  | datetime
  | array (values : List TomlValue)
  | table (entries : List (String × TomlValue))

/-- Model of `toml::Value::as_str`. -/
def asStr : TomlValue → Option String
  | .str s => some s
  | _ => none

/-- Model of `toml::Value::is_str`. -/
def isStr (v : TomlValue) : Bool := (asStr v).isSome

/-- Model of `toml::Value::as_array`. -/
def asArray : TomlValue → Option (List TomlValue)
  | .array vs => some vs
  | _ => none

/-- The declared field names of `struct Manager` (everything serde
accepts under `deny_unknown_fields`). -/
def knownFields : List String :=
  ["name", "add", "remove", "list", "upgrade", "remove_then_add", "items_separator",
    "items", "items_to_add", "items_to_remove"]

def lookupField (tbl : List (String × TomlValue)) (key : String) : Option TomlValue :=
  (tbl.find? (fun kv => kv.1 = key)).map (fun kv => kv.2)

/-- A required string field (serde: missing or ill-typed is an error). -/
def strFieldReq (tbl : List (String × TomlValue)) (key : String) : Except String String :=
  match lookupField tbl key with
  | none => .error ("missing field " ++ key)
  | some v =>
    match asStr v with
    | some s => .ok s
    | none => .error ("invalid type for field " ++ key)

/-- An optional string field with a default (serde `#[serde(default)]`). -/
def strFieldD (tbl : List (String × TomlValue)) (key d : String) : Except String String :=
  match lookupField tbl key with
  | none => .ok d
  | some v =>
    match asStr v with
    | some s => .ok s
    | none => .error ("invalid type for field " ++ key)

/-- An `Option<String>` field (absent deserializes to `None`). -/
def optStrField (tbl : List (String × TomlValue)) (key : String) :
    Except String (Option String) :=
  match lookupField tbl key with
  | none => .ok none
  | some v =>
    match asStr v with
    | some s => .ok (some s)
    | none => .error ("invalid type for field " ++ key)

/-- A `bool` field with a default (serde `#[serde(default)]`). -/
def boolFieldD (tbl : List (String × TomlValue)) (key : String) (d : Bool) :
    Except String Bool :=
  match lookupField tbl key with
  | none => .ok d
  | some v =>
    match v with
    | .boolean b => .ok b
    | _ => .error ("invalid type for field " ++ key)

/-- Deserializing a TOML array as a list of strings. -/
def strsOf : List TomlValue → Except String (List String)
  | [] => .ok []
  | v :: rest =>
    match asStr v with
    | none => .error "invalid type: expected a string"
    | some s => (strsOf rest).map (fun ss => s :: ss)

/-- A string-collection field with default empty (serde `#[serde(default)]`
on `HashSet<String>` / `Vec<String>`). -/
def strListFieldD (tbl : List (String × TomlValue)) (key : String) :
    Except String (List String) :=
  match lookupField tbl key with
  | none => .ok []
  | some v =>
    match asArray v with
    | none => .error ("invalid type for field " ++ key)
    | some vs => strsOf vs

/-- Model of `toml::from_str::<Manager>` on an already-parsed top-level
table, per the struct's serde attributes. -/
def deserializeManager (tbl : List (String × TomlValue)) : Except String Manager := do
  if tbl.any (fun kv => !(knownFields.contains kv.1)) then
    .error "unknown field"
  else
    let name ← strFieldD tbl "name" ""
    let add ← strFieldReq tbl "add"
    let remove ← strFieldReq tbl "remove"
    let list ← strFieldReq tbl "list"
    let upgrade ← optStrField tbl "upgrade"
    let remove_then_add ← boolFieldD tbl "remove_then_add" false
    let items_separator ← optStrField tbl "items_separator"
    let items ← strListFieldD tbl "items"
    let items_to_add ← strListFieldD tbl "items_to_add"
    let items_to_remove ← strListFieldD tbl "items_to_remove"
    pure { name := name, add := add, remove := remove, list := list, upgrade := upgrade,
           remove_then_add := remove_then_add, items_separator := items_separator,
           items := items.toFinset, items_to_add := items_to_add,
           items_to_remove := items_to_remove }

/-- `load_managers`, single file (src/main.rs lines 121–130): deserialize
the manager declaration, then overwrite `name` with the filename stem. -/
def loadManager (stemName : String) (tbl : List (String × TomlValue)) :
    Except String Manager :=
  (deserializeManager tbl).map (fun manager => { manager with name := stemName })

/-! ### Manager ordering and `load_managers` (src/main.rs lines 96–158)

The sort key is `manager_order.iter().position(|o| *o == manager.name)`,
an `Option<usize>`; `optionNatLE` is Rust's derived `Ord` on
`Option<usize>` (`None` compares less than every `Some`).  The source
sorts with `sort_unstable_by_key`, which gives no guarantee on the
relative order of equal keys; `sortS` is a deterministic (stable
insertion) sort realizing one permitted outcome, and every claim proved
about it below is either key-sortedness, a permutation statement, or an
evaluation on distinct keys, all of which are outcome-independent. -/

def managerSortKey (manager_order : List String) (m : Manager) : Option Nat :=
  manager_order.findIdx? (fun ordered_manager => ordered_manager = m.name)

def optionNatLE : Option Nat → Option Nat → Bool
  | none, _ => true
  | some _, none => false
  | some a, some b => a ≤ b

def insertS {α : Type} (le : α → α → Bool) (a : α) : List α → List α
  | [] => [a]
  | b :: bs => if le a b then a :: b :: bs else b :: insertS le a bs

def sortS {α : Type} (le : α → α → Bool) : List α → List α
  | [] => []
  | a :: rest => insertS le a (sortS le rest)

def sortManagers (manager_order : List String) (managers : List Manager) : List Manager :=
  sortS (fun m₁ m₂ => optionNatLE (managerSortKey manager_order m₁)
    (managerSortKey manager_order m₂)) managers

/-- `load_managers` after the per-file loading: the `--managers` filter
(lines 112–119), the ordering sort (lines 139–143), and the
"all requested managers were found" check (lines 146–155), whose source
condition errors when `managers.iter().any(|m| m.name == manager_to_load)`
holds, i.e. when the requested manager IS present. -/
def loadManagersModel (managers_to_load : Option (List String))
    (discovered : List Manager) (manager_order : List String) :
    Except String (List Manager) :=
  let managers := sortManagers manager_order
    (discovered.filter (fun m =>
      match managers_to_load with
      | none => true
      | some ms => ms.contains m.name))
  match managers_to_load with
  | none => .ok managers
  | some ms =>
    if ms.any (fun manager_to_load =>
        managers.any (fun manager => manager.name = manager_to_load)) then
      .error "Requested Manager not found"
    else .ok managers

/-! ### Config resolution (`load_configs`, src/main.rs lines 161–222) -/

/-- The iterator over the values of one config entry (lines 185–191):
`value.as_array().into_iter().flatten().chain(value.is_str().then_some(&value))`
— the array's elements if the value is an array, then the value itself
if it is a string, and nothing at all otherwise. -/
def entryValues (value : TomlValue) : List TomlValue :=
  ((asArray value).getD []) ++ (if isStr value then [value] else [])

/-- The `try_for_each` body's string conversion (lines 193–196): each
value must be a string, the first non-string aborts with the fatal
"Found non-string item" error. -/
def itemsOf : List TomlValue → Except String (List String)
  | [] => .ok []
  | v :: rest =>
    match asStr v with
    | none => .error "Found non-string item"
    | some item => (itemsOf rest).map (fun items => item :: items)

/-- Appending import identifiers to the worklist (lines 199–204): each
identifier is pushed only if the worklist does not already contain it. -/
def enqueueImports (configs_to_parse : List String) : List String → List String
  | [] => configs_to_parse
  | item :: rest =>
    enqueueImports
      (if configs_to_parse.contains item then configs_to_parse
       else configs_to_parse ++ [item]) rest

/-- Inserting items into the first manager whose name matches the entry
key (lines 205–213); no matching manager silently discards the items. -/
def insertItemsFirst (key : String) (items : List String) : List Manager → List Manager
  | [] => []
  | m :: rest =>
    if m.name = key then { m with items := m.items ∪ items.toFinset } :: rest
    else m :: insertItemsFirst key items rest

/-- The effect of one `(manager_name, value)` config entry (lines
183–217) on the managers and the worklist. -/
def applyEntry (managers : List Manager) (configs_to_parse : List String)
    (manager_name : String) (value : TomlValue) :
    Except String (List Manager × List String) :=
  (itemsOf (entryValues value)).map (fun items =>
    if manager_name = "imports" then (managers, enqueueImports configs_to_parse items)
    else (insertItemsFirst manager_name items managers, configs_to_parse))

/-- The worklist loop of `load_configs` (lines 171–220), abstracted over
the import graph: `imports c` is the list of string identifiers under
the `imports` key of document `c`, in document order (the loop aborts
before reaching the worklist on a non-string entry, so the success path
modelled here sees only strings).  The loop reads the entry at index
`i`, enqueues its imports, and increments `i`; it stops when `i` runs
past the end of the worklist.  The `fuel` argument makes the recursion
structural; any `fuel` at least the number of iterations the loop
performs yields the loop's result. -/
def resolveWorklist (imports : String → List String) :
    Nat → List String → Nat → List String
  | 0, configs_to_parse, _ => configs_to_parse
  | fuel + 1, configs_to_parse, i =>
    if h : i < configs_to_parse.length then
      resolveWorklist imports fuel
        (enqueueImports configs_to_parse (imports (configs_to_parse.get ⟨i, h⟩)))
        (i + 1)
    else configs_to_parse

/-! ### Reconciliation (`compute_add_remove`, src/main.rs lines 225–267) -/

/-- Parsing the list command's standard output (lines 250–254):
`split('\n')`, then discard empty tokens. -/
def parseListOutput (stdout : String) : List String :=
  (splitNl stdout).filter (fun item => !item.isEmpty)

/-- The parsed output collected into the `system_items : HashSet<String>`. -/
def installedSet (stdout : String) : Finset String :=
  (parseListOutput stdout).toFinset

/-- The per-manager body of `compute_add_remove` (lines 250–264), given
the captured standard output of the manager's list command.  The source
collects each `HashSet::difference` iterator into a `Vec` in an
unspecified hash order; the model enumerates the difference in a fixed
(lexicographic) order, one permitted outcome. -/
def compute_add_remove_one (m : Manager) (stdout : String) : Manager :=
  { m with
    items_to_add := Finset.sort (· ≤ ·) (m.items \ installedSet stdout),
    items_to_remove := Finset.sort (· ≤ ·) (installedSet stdout \ m.items) }

/-- `compute_add_remove` over the manager list, with `out m` the
standard output of manager `m`'s list command (success path). -/
def compute_add_remove (out : Manager → String) (managers : List Manager) : List Manager :=
  managers.map (fun m => compute_add_remove_one m (out m))

/-! ### Command templating and execution (src/main.rs lines 304–371)

`ok cmd` is the exit status (true = success) the shell reports for
command string `cmd`; a run is the pair (commands issued in order,
overall success). -/

/-- `try_for_each(run_command)` over a command list: each command is
spawned in order; a failing command is the last one issued and aborts
the rest. -/
def runCommands (ok : String → Bool) : List String → List String × Bool
  | [] => ([], true)
  | command :: rest =>
    if ok command then
      (command :: (runCommands ok rest).1, (runCommands ok rest).2)
    else ([command], false)

/-- `fmt_run_command` (lines 305–326): the `<item>` branch issues one
command per item with `<item>` substituted; otherwise the `<items>`
branch joins the items with the separator and issues one command;
otherwise the fatal "should contain either <item> or <items>" error
issues nothing. -/
def fmt_run_command (ok : String → Bool) (format_command : String)
    (items : List String) (items_separator : String) : List String × Bool :=
  if strContains format_command "<item>" then
    runCommands ok (items.map (fun item => strReplace format_command "<item>" item))
  else if strContains format_command "<items>" then
    runCommands ok [strReplace format_command "<items>" (strJoin items_separator items)]
  else ([], false)

/-- The full command list an operation would issue if nothing failed:
empty when the operation's item list is empty (the source never calls
`fmt_run_command` then), otherwise the commands of the matching
template branch. -/
def fmtCommands (format_command : String) (items : List String)
    (items_separator : String) : List String :=
  if strContains format_command "<item>" then
    items.map (fun item => strReplace format_command "<item>" item)
  else if strContains format_command "<items>" then
    [strReplace format_command "<items>" (strJoin items_separator items)]
  else []

def opCommands (items_separator : String) (op : String × List String) : List String :=
  if op.2.isEmpty then [] else fmtCommands op.1 op.2 items_separator

/-- The commands a whole operation list would issue if nothing failed. -/
def opsCommands (items_separator : String) (ops : List (String × List String)) : List String :=
  ops.foldr (fun op acc => opCommands items_separator op ++ acc) []

/-- The operation loop of `add_remove_items` (lines 361–368): skip an
operation with no items, otherwise run its commands and stop at the
first failure. -/
def add_remove_items_ops (ok : String → Bool) (items_separator : String) :
    List (String × List String) → List String × Bool
  | [] => ([], true)
  | (format_command, items) :: rest =>
    if items.isEmpty then add_remove_items_ops ok items_separator rest
    else
      if (fmt_run_command ok format_command items items_separator).2 then
        ((fmt_run_command ok format_command items items_separator).1
            ++ (add_remove_items_ops ok items_separator rest).1,
          (add_remove_items_ops ok items_separator rest).2)
      else ((fmt_run_command ok format_command items items_separator).1, false)

/-- The operation pair of `add_remove_items` (lines 352–359): add then
remove, reversed when `remove_then_add` is set. -/
def managerOps (m : Manager) : List (String × List String) :=
  let operations := [(m.add, m.items_to_add), (m.remove, m.items_to_remove)]
  if m.remove_then_add then operations.reverse else operations

/-- `add_remove_items` restricted to one manager (lines 350–369),
including the separator default `unwrap_or(" ")` (line 364). -/
def add_remove_items_manager (ok : String → Bool) (m : Manager) : List String × Bool :=
  add_remove_items_ops ok (m.items_separator.getD " ") (managerOps m)

/-- `add_remove_items` over the manager list (lines 349–371). -/
def add_remove_items (ok : String → Bool) : List Manager → List String × Bool
  | [] => ([], true)
  | m :: rest =>
    if (add_remove_items_manager ok m).2 then
      ((add_remove_items_manager ok m).1 ++ (add_remove_items ok rest).1,
        (add_remove_items ok rest).2)
    else ((add_remove_items_manager ok m).1, false)

/-! ### Concrete fixtures used by counterexamples and witnesses -/

def mgrA : Manager := { name := "A", add := "a add <items>", remove := "a rm <items>", list := "a ls" }

def mgrB : Manager := { name := "B", add := "b add <items>", remove := "b rm <items>", list := "b ls" }

def mgrC : Manager := { name := "C", add := "c add <items>", remove := "c rm <items>", list := "c ls" }

/-- Two config documents importing each other. -/
def twoCycleImports : String → List String :=
  fun c => if c = "a" then ["b"] else if c = "b" then ["a"] else []

/-- A shell in which every command succeeds. -/
def okAll : String → Bool := fun _ => true

/-- A manager with non-empty computed add and remove sets. -/
def mgrExec : Manager :=
  { name := "E", add := "e add <items>", remove := "e rm <items>", list := "e ls",
    items_to_add := ["x"], items_to_remove := ["y"] }

/-! ### Helper lemmas -/

lemma strNotEmpty_iff (s : String) : (!s.isEmpty) = true ↔ s ≠ "" := by
  constructor
  · intro h hs
    subst hs
    exact absurd h (by decide)
  · intro h
    cases hE : s.isEmpty
    · rfl
    · exact absurd ((String.isEmpty_iff s).mp hE) h

lemma nodup_enqueueImports (imported : List String) :
    ∀ wl : List String, wl.Nodup → (enqueueImports wl imported).Nodup := by
  induction imported with
  | nil => exact fun wl h => h
  | cons x xs ih =>
    intro wl h
    rw [enqueueImports]
    by_cases hx : wl.contains x
    · rw [if_pos hx]
      exact ih wl h
    · rw [if_neg hx]
      refine ih _ ?_
      have hmem : x ∉ wl := by simpa using hx
      simp [List.nodup_append, h, hmem]

lemma resolveWorklist_stop (imports : String → List String) (fuel : Nat)
    (wl : List String) (i : Nat) (h : wl.length ≤ i) :
    resolveWorklist imports fuel wl i = wl := by
  cases fuel with
  | zero => rfl
  | succ f =>
    rw [resolveWorklist, dif_neg]
    omega

/-! ### Claim theorems -/

/-- Claim C1: after reconciliation, the computed sets satisfy
`items_to_add = desired_items − installed_items`,
`items_to_remove = installed_items − desired_items` (set difference
under exact string equality), and the two computed sets are disjoint. -/
theorem c1_add_remove_set_difference (m : Manager) (stdout : String) :
    (compute_add_remove_one m stdout).items_to_add.toFinset
        = m.items \ installedSet stdout ∧
    (compute_add_remove_one m stdout).items_to_remove.toFinset
        = installedSet stdout \ m.items ∧
    (compute_add_remove_one m stdout).items_to_add.toFinset ∩
        (compute_add_remove_one m stdout).items_to_remove.toFinset = ∅ := by
  refine ⟨by simp [compute_add_remove_one], by simp [compute_add_remove_one], ?_⟩
  simp only [compute_add_remove_one, Finset.sort_toFinset]
  ext x
  simp only [Finset.mem_inter, Finset.mem_sdiff, Finset.not_mem_empty, iff_false]
  tauto

/-- Claim C8: the installed set is parsed by splitting standard output
on newline characters and discarding exactly the empty tokens
(including the one after a final trailing newline); no other trimming
or normalization is applied, so tokens differing only in surrounding
whitespace or case are distinct installed items. -/
theorem c8_parse_newline_split (stdout : String) :
    (∀ item, item ∈ parseListOutput stdout ↔ item ∈ splitNl stdout ∧ item ≠ "") ∧
    parseListOutput "a\nb\n" = ["a", "b"] ∧
    parseListOutput "a\n\n\nb" = ["a", "b"] ∧
    (installedSet " a\na\nA \n").card = 3 := by
  refine ⟨fun item => ?_, by decide, by decide, by decide⟩
  rw [parseListOutput, List.mem_filter]
  exact and_congr_right fun _ => strNotEmpty_iff item

/-- Claim C2 (code behavior at the claim's inputs): the source's
"all requested managers were found" check is inverted — requesting
manager `A` while `A.toml` is among the discovered managers is a fatal
"Requested Manager not found" error, while requesting an absent `Z`
succeeds (with an empty manager list). -/
theorem c2_requested_check_inverted :
    loadManagersModel (some ["A"]) [mgrA] [] = .error "Requested Manager not found" ∧
    loadManagersModel (some ["Z"]) [mgrA] [] = .ok [] := by
  constructor <;> rfl

/-- Claim C4: the import worklist never contains the same document
identifier twice — an identifier is appended only if not already
present — and a cycle of two mutually importing documents terminates
with each document enqueued exactly once. -/
theorem c4_worklist_no_duplicates :
    (∀ (imports : String → List String) (fuel : Nat) (wl : List String) (i : Nat),
      wl.Nodup → (resolveWorklist imports fuel wl i).Nodup) ∧
    (∀ fuel : Nat, resolveWorklist twoCycleImports (fuel + 2) ["a"] 0 = ["a", "b"]) := by
  constructor
  · intro imports fuel
    induction fuel with
    | zero => exact fun wl i h => h
    | succ f ih =>
      intro wl i h
      rw [resolveWorklist]
      split
      · exact ih _ _ (nodup_enqueueImports _ _ h)
      · exact h
  · intro fuel
    have h1 : resolveWorklist twoCycleImports (fuel + 2) ["a"] 0
        = resolveWorklist twoCycleImports fuel ["a", "b"] 2 := rfl
    rw [h1]
    exact resolveWorklist_stop twoCycleImports fuel ["a", "b"] 2 (by decide)

/-- Witness for C4: the no-duplicates invariant at a concrete run. -/
theorem c4_worklist_no_duplicates_witness :
    (resolveWorklist twoCycleImports 5 ["a"] 0).Nodup :=
  c4_worklist_no_duplicates.1 twoCycleImports 5 ["a"] 0 (by simp)
lemma mem_insertS {α : Type} (le : α → α → Bool) (a x : α) :
    ∀ l : List α, x ∈ insertS le a l ↔ x = a ∨ x ∈ l := by
  intro l
  induction l with
  | nil => simp [insertS]
  | cons b bs ih =>
    by_cases h : le a b
    · simp [insertS, h]
    · simp [insertS, h, ih]
      tauto

lemma perm_insertS {α : Type} (le : α → α → Bool) (a : α) :
    ∀ l : List α, (insertS le a l).Perm (a :: l) := by
  intro l
  induction l with
  | nil => exact List.Perm.refl _
  | cons b bs ih =>
    by_cases h : le a b
    · simp [insertS, h]
    · rw [insertS, if_neg h]
      exact (ih.cons b).trans (List.Perm.swap a b bs)

lemma perm_sortS {α : Type} (le : α → α → Bool) :
    ∀ l : List α, (sortS le l).Perm l := by
  intro l
  induction l with
  | nil => exact List.Perm.refl _
  | cons a rest ih =>
    exact (perm_insertS le a (sortS le rest)).trans (ih.cons a)

lemma pairwise_insertS {α : Type} (le : α → α → Bool)
    (htrans : ∀ x y z, le x y = true → le y z = true → le x z = true)
    (htot : ∀ x y, le x y = true ∨ le y x = true) (a : α) :
    ∀ l : List α, l.Pairwise (fun x y => le x y = true) →
      (insertS le a l).Pairwise (fun x y => le x y = true) := by
  intro l
  induction l with
  | nil => simp [insertS]
  | cons b bs ih =>
    intro hl
    rw [List.pairwise_cons] at hl
    obtain ⟨hb, hbs⟩ := hl
    by_cases h : le a b
    · rw [insertS, if_pos h, List.pairwise_cons]
      refine ⟨fun x hx => ?_, List.pairwise_cons.mpr ⟨hb, hbs⟩⟩
      rcases List.mem_cons.mp hx with hxb | hxbs
      · exact hxb ▸ h
      · exact htrans a b x h (hb x hxbs)
    · rw [insertS, if_neg h, List.pairwise_cons]
      refine ⟨fun x hx => ?_, ih hbs⟩
      rcases (mem_insertS le a x bs).mp hx with hxa | hxbs
      · rcases htot a b with hab | hba
        · exact absurd hab h
        · rw [hxa]
          exact hba
      · exact hb x hxbs

lemma pairwise_sortS {α : Type} (le : α → α → Bool)
    (htrans : ∀ x y z, le x y = true → le y z = true → le x z = true)
    (htot : ∀ x y, le x y = true ∨ le y x = true) :
    ∀ l : List α, (sortS le l).Pairwise (fun x y => le x y = true) := by
  intro l
  induction l with
  | nil => simp [sortS]
  | cons a rest ih => exact pairwise_insertS le htrans htot a (sortS le rest) ih

lemma optionNatLE_trans (a b c : Option Nat) :
    optionNatLE a b = true → optionNatLE b c = true → optionNatLE a c = true := by
  cases a <;> cases b <;> cases c <;> simp [optionNatLE] <;> omega

lemma optionNatLE_total (a b : Option Nat) :
    optionNatLE a b = true ∨ optionNatLE b a = true := by
  cases a <;> cases b <;> simp [optionNatLE] <;> omega

/-- Counterexample to claim C3: with ordering file `[B, A]` and
discovered managers `A, B, C`, the resolved order is `[C, B, A]`, not
the claimed `[B, A, C]` — `C`, matching no ordering entry, gets sort
key `None`, and Rust's `Option` ordering puts `None` before every
`Some`, so unordered managers sort first, not last. -/
theorem c3_order_counterexample :
    (sortManagers ["B", "A"] [mgrA, mgrB, mgrC]).map Manager.name = ["C", "B", "A"] ∧
    (["C", "B", "A"] : List String) ≠ ["B", "A", "C"] := by
  constructor
  · rfl
  · decide

/-- Claim C3 as amended: manager loading sorts managers by their
position in the Manager Ordering List under Rust's `Option` ordering,
in which a manager whose name appears in no entry (key `None`) sorts
BEFORE all named managers; the source's sort is unstable, so the
relative order of equal keys is not guaranteed (the model fixes one
permitted outcome).  The result is a permutation of the discovered
managers, sorted by key; for ordering file `[B, A]` and discovered
managers `A, B, C`, the resolved order is `[C, B, A]`. -/
theorem c3_sort_by_order_position (manager_order : List String) (managers : List Manager) :
    (sortManagers manager_order managers).Perm managers ∧
    (sortManagers manager_order managers).Pairwise (fun m₁ m₂ =>
      optionNatLE (managerSortKey manager_order m₁) (managerSortKey manager_order m₂) = true) ∧
    (sortManagers ["B", "A"] [mgrA, mgrB, mgrC]).map Manager.name = ["C", "B", "A"] := by
  refine ⟨perm_sortS _ managers, ?_, rfl⟩
  exact pairwise_sortS _
    (fun x y z => optionNatLE_trans (managerSortKey manager_order x)
      (managerSortKey manager_order y) (managerSortKey manager_order z))
    (fun x y => optionNatLE_total (managerSortKey manager_order x)
      (managerSortKey manager_order y)) managers

lemma insertItemsFirst_nil_items (key : String) :
    ∀ managers : List Manager, insertItemsFirst key [] managers = managers := by
  intro managers
  induction managers with
  | nil => rfl
  | cons m rest ih =>
    by_cases h : m.name = key
    · rw [insertItemsFirst, if_pos h]
      have he : m.items ∪ ([] : List String).toFinset = m.items := by simp
      rw [he]
    · simp [insertItemsFirst, h, ih]

lemma itemsOf_ok_of_all_str :
    ∀ vs : List TomlValue, (∀ x ∈ vs, (asStr x).isSome) →
      ∃ items, itemsOf vs = .ok items := by
  intro vs
  induction vs with
  | nil => exact fun _ => ⟨[], rfl⟩
  | cons v rest ih =>
    intro hall
    have hv := hall v (List.mem_cons_self v rest)
    obtain ⟨s, hs⟩ := Option.isSome_iff_exists.mp hv
    obtain ⟨items, hitems⟩ := ih fun x hx => hall x (List.mem_cons_of_mem v hx)
    exact ⟨s :: items, by simp [itemsOf, hs, hitems, Except.map]⟩

lemma itemsOf_error_of_mem :
    ∀ (vs : List TomlValue) (x : TomlValue), x ∈ vs → asStr x = none →
      ∃ e, itemsOf vs = .error e := by
  intro vs
  induction vs with
  | nil => intro x hx; exact absurd hx (List.not_mem_nil x)
  | cons v rest ih =>
    intro x hx hxs
    rcases List.mem_cons.mp hx with hxv | hxrest
    · subst hxv
      exact ⟨"Found non-string item", by simp [itemsOf, hxs]⟩
    · cases hv : asStr v with
      | none => exact ⟨"Found non-string item", by simp [itemsOf, hv]⟩
      | some s =>
        obtain ⟨e, he⟩ := ih x hxrest hxs
        exact ⟨e, by simp [itemsOf, hv, he, Except.map]⟩

/-- Claim C9: during config resolution, a key whose value is neither a
string nor an array (an integer, boolean, float, datetime, or table)
is silently skipped — no error, no item, no import is recorded — and
the fatal non-string-item error occurs exactly when the value is an
array with a non-string element. -/
theorem c9_non_collection_value_skipped (managers : List Manager)
    (configs_to_parse : List String) (manager_name : String) (value : TomlValue) :
    (asStr value = none → asArray value = none →
      applyEntry managers configs_to_parse manager_name value
        = .ok (managers, configs_to_parse)) ∧
    ((∃ e, applyEntry managers configs_to_parse manager_name value = .error e) ↔
      ∃ vs, value = .array vs ∧ ∃ x ∈ vs, asStr x = none) := by
  constructor
  · intro h1 h2
    rw [applyEntry, entryValues, h2]
    simp only [Option.getD_none, List.nil_append, isStr, h1, Option.isSome_none,
      Bool.false_eq_true, if_false, itemsOf, Except.map]
    by_cases hk : manager_name = "imports"
    · simp [hk, enqueueImports]
    · simp [hk, insertItemsFirst_nil_items]
  · constructor
    · rintro ⟨e, he⟩
      cases value with
      | array vs =>
        refine ⟨vs, rfl, ?_⟩
        by_contra hall
        push_neg at hall
        have hall' : ∀ x ∈ vs, (asStr x).isSome := by
          intro x hx
          cases hxs : asStr x with
          | none => exact absurd hxs (hall x hx)
          | some s => rfl
        obtain ⟨items, hitems⟩ := itemsOf_ok_of_all_str vs hall'
        rw [applyEntry] at he
        have : entryValues (TomlValue.array vs) = vs := by
          simp [entryValues, asArray, isStr, asStr]
        rw [this, hitems] at he
        simp [Except.map] at he
      | str s =>
        rw [applyEntry] at he
        have : entryValues (TomlValue.str s) = [TomlValue.str s] := by
          simp [entryValues, asArray, isStr, asStr]
        rw [this] at he
        simp [itemsOf, asStr, Except.map] at he
      | int n =>
        rw [applyEntry] at he
        have : entryValues (TomlValue.int n) = [] := by
          simp [entryValues, asArray, isStr, asStr]
        rw [this] at he
        simp [itemsOf, Except.map] at he
      | boolean b =>
        rw [applyEntry] at he
        have : entryValues (TomlValue.boolean b) = [] := by
          simp [entryValues, asArray, isStr, asStr]
        rw [this] at he
        simp [itemsOf, Except.map] at he
      | float =>
        rw [applyEntry] at he
        have : entryValues TomlValue.float = [] := by
          simp [entryValues, asArray, isStr, asStr]
        rw [this] at he
        simp [itemsOf, Except.map] at he
      | datetime =>
        rw [applyEntry] at he
        have : entryValues TomlValue.datetime = [] := by
          simp [entryValues, asArray, isStr, asStr]
        rw [this] at he
        simp [itemsOf, Except.map] at he
      | table entries =>
        rw [applyEntry] at he
        have : entryValues (TomlValue.table entries) = [] := by
          simp [entryValues, asArray, isStr, asStr]
        rw [this] at he
        simp [itemsOf, Except.map] at he
    · rintro ⟨vs, rfl, x, hx, hxs⟩
      obtain ⟨e, he⟩ := itemsOf_error_of_mem vs x hx hxs
      refine ⟨e, ?_⟩
      rw [applyEntry]
      have : entryValues (TomlValue.array vs) = vs := by
        simp [entryValues, asArray, isStr, asStr]
      rw [this, he]
      rfl

/-- Witness for C9: an integer-valued entry is skipped without error
and without touching the managers or the worklist. -/
theorem c9_non_collection_value_skipped_witness :
    applyEntry [] [] "pacman" (TomlValue.int 3) = .ok ([], []) :=
  (c9_non_collection_value_skipped [] [] "pacman" (TomlValue.int 3)).1 rfl rfl

lemma strsOf_map_str : ∀ l : List String, strsOf (l.map TomlValue.str) = .ok l := by
  intro l
  induction l with
  | nil => rfl
  | cons s rest ih => simp [strsOf, asStr, ih, Except.map]

/-- Claim C10: a manager declaration file that sets the internal fields
`name`, `items`, `items_to_add`, `items_to_remove` and `remove_then_add`
deserializes without the unknown-field schema error (they are declared,
optional, defaulted fields); the file's `name` is then overwritten by
the filename stem, and the file's `items` pre-seed the manager's
desired set. -/
theorem c10_internal_fields_accepted (stemName nm a r l : String) (b : Bool)
    (itms adds rems : List String) :
    loadManager stemName
      [("name", .str nm), ("add", .str a), ("remove", .str r), ("list", .str l),
       ("remove_then_add", .boolean b), ("items", .array (itms.map .str)),
       ("items_to_add", .array (adds.map .str)), ("items_to_remove", .array (rems.map .str))]
      = .ok { name := stemName, add := a, remove := r, list := l, upgrade := none,
              remove_then_add := b, items_separator := none, items := itms.toFinset,
              items_to_add := adds, items_to_remove := rems } := by
  simp [loadManager, deserializeManager, strFieldReq, strFieldD, optStrField, boolFieldD,
    strListFieldD, lookupField, knownFields, asStr, asArray, strsOf_map_str, Except.map,
    List.find?, List.any, Bind.bind, Except.bind, Pure.pure, Except.pure]

lemma runCommands_issued_ex (ok : String → Bool) :
    ∀ cs : List String, ∃ t, (runCommands ok cs).1 ++ t = cs := by
  intro cs
  induction cs with
  | nil => exact ⟨[], rfl⟩
  | cons c rest ih =>
    by_cases h : ok c
    · obtain ⟨t, ht⟩ := ih
      refine ⟨t, ?_⟩
      rw [runCommands, if_pos h]
      simpa using ht
    · refine ⟨rest, ?_⟩
      rw [runCommands, if_neg h]
      rfl

lemma runCommands_all_ok (ok : String → Bool) :
    ∀ cs : List String, (∀ c ∈ cs, ok c = true) → runCommands ok cs = (cs, true) := by
  intro cs
  induction cs with
  | nil => exact fun _ => rfl
  | cons c rest ih =>
    intro hall
    rw [runCommands, if_pos (hall c (List.mem_cons_self c rest))]
    rw [ih fun x hx => hall x (List.mem_cons_of_mem c hx)]

lemma runCommands_success (ok : String → Bool) :
    ∀ cs : List String, (runCommands ok cs).2 = true → (runCommands ok cs).1 = cs := by
  intro cs
  induction cs with
  | nil => exact fun _ => rfl
  | cons c rest ih =>
    intro hs
    by_cases h : ok c
    · rw [runCommands, if_pos h] at hs ⊢
      show c :: (runCommands ok rest).1 = c :: rest
      rw [ih hs]
    · rw [runCommands, if_neg h] at hs
      exact absurd hs (by simp)

lemma runCommands_fail (ok : String → Bool) :
    ∀ cs : List String, (runCommands ok cs).2 = false →
      ∃ pre c post, cs = pre ++ c :: post ∧ (∀ x ∈ pre, ok x = true) ∧ ok c = false ∧
        (runCommands ok cs).1 = pre ++ [c] := by
  intro cs
  induction cs with
  | nil => exact fun h => absurd h (by simp [runCommands])
  | cons c rest ih =>
    intro hf
    by_cases h : ok c
    · rw [runCommands, if_pos h] at hf ⊢
      obtain ⟨pre, d, post, hcs, hpre, hd, hissued⟩ := ih hf
      refine ⟨c :: pre, d, post, by rw [List.cons_append, ← hcs], ?_, hd, ?_⟩
      · intro x hx
        rcases List.mem_cons.mp hx with rfl | hx'
        · exact h
        · exact hpre x hx'
      · show c :: (runCommands ok rest).1 = (c :: pre) ++ [d]
        rw [hissued, List.cons_append]
    · refine ⟨[], c, rest, rfl, by simp, ?_, ?_⟩
      · simpa using h
      · rw [runCommands, if_neg h]
        rfl

lemma fmt_run_command_issued_ex (ok : String → Bool) (format_command : String)
    (items : List String) (items_separator : String) :
    ∃ t, (fmt_run_command ok format_command items items_separator).1 ++ t
      = fmtCommands format_command items items_separator := by
  rw [fmt_run_command, fmtCommands]
  by_cases h1 : strContains format_command "<item>"
  · rw [if_pos h1, if_pos h1]
    exact runCommands_issued_ex ok _
  · rw [if_neg h1, if_neg h1]
    by_cases h2 : strContains format_command "<items>"
    · rw [if_pos h2, if_pos h2]
      exact runCommands_issued_ex ok _
    · rw [if_neg h2, if_neg h2]
      exact ⟨[], rfl⟩

lemma fmt_run_command_success (ok : String → Bool) (format_command : String)
    (items : List String) (items_separator : String) :
    (fmt_run_command ok format_command items items_separator).2 = true →
      (fmt_run_command ok format_command items items_separator).1
        = fmtCommands format_command items items_separator := by
  rw [fmt_run_command, fmtCommands]
  by_cases h1 : strContains format_command "<item>"
  · rw [if_pos h1, if_pos h1]
    exact runCommands_success ok _
  · rw [if_neg h1, if_neg h1]
    by_cases h2 : strContains format_command "<items>"
    · rw [if_pos h2, if_pos h2]
      exact runCommands_success ok _
    · rw [if_neg h2, if_neg h2]
      intro hs
      exact absurd hs (by simp)

lemma add_remove_items_ops_issued_ex (ok : String → Bool) (items_separator : String) :
    ∀ ops : List (String × List String),
      ∃ t, (add_remove_items_ops ok items_separator ops).1 ++ t
        = opsCommands items_separator ops := by
  intro ops
  induction ops with
  | nil => exact ⟨[], rfl⟩
  | cons op rest ih =>
    obtain ⟨fc, items⟩ := op
    by_cases he : items.isEmpty
    · have he' : items = [] := by simpa using he
      obtain ⟨t, ht⟩ := ih
      refine ⟨t, ?_⟩
      rw [add_remove_items_ops, if_pos he, ht]
      simp [opsCommands, opCommands, he']
    · have he' : ¬items = [] := by simpa using he
      cases hr : (fmt_run_command ok fc items items_separator).2
      · obtain ⟨t, ht⟩ := fmt_run_command_issued_ex ok fc items items_separator
        refine ⟨t ++ opsCommands items_separator rest, ?_⟩
        rw [add_remove_items_ops, if_neg he, if_neg (by simp [hr])]
        show (fmt_run_command ok fc items items_separator).1
            ++ (t ++ opsCommands items_separator rest)
          = opsCommands items_separator ((fc, items) :: rest)
        rw [← List.append_assoc, ht]
        simp [opsCommands, opCommands, he']
      · obtain ⟨t, ht⟩ := ih
        refine ⟨t, ?_⟩
        rw [add_remove_items_ops, if_neg he, if_pos (by simp [hr])]
        show (fmt_run_command ok fc items items_separator).1
            ++ (add_remove_items_ops ok items_separator rest).1 ++ t
          = opsCommands items_separator ((fc, items) :: rest)
        rw [List.append_assoc, ht, fmt_run_command_success ok fc items items_separator hr]
        simp [opsCommands, opCommands, he']

/-- Claim C5: for a manager whose `remove_then_add` flag is false (the
default) the commands issued are an initial segment of all add-operation
commands followed by all remove-operation commands, and with the flag
set, of all remove commands followed by all add commands; an operation
whose item set is empty contributes no command at all (its template is
never expanded). -/
theorem c5_add_before_remove (ok : String → Bool) (m : Manager) :
    (m.remove_then_add = false →
      ∃ t, (add_remove_items_manager ok m).1 ++ t
        = opCommands (m.items_separator.getD " ") (m.add, m.items_to_add)
          ++ opCommands (m.items_separator.getD " ") (m.remove, m.items_to_remove)) ∧
    (m.remove_then_add = true →
      ∃ t, (add_remove_items_manager ok m).1 ++ t
        = opCommands (m.items_separator.getD " ") (m.remove, m.items_to_remove)
          ++ opCommands (m.items_separator.getD " ") (m.add, m.items_to_add)) ∧
    (m.items_to_add = [] →
      opCommands (m.items_separator.getD " ") (m.add, m.items_to_add) = []) ∧
    (m.items_to_remove = [] →
      opCommands (m.items_separator.getD " ") (m.remove, m.items_to_remove) = []) := by
  refine ⟨?_, ?_, ?_, ?_⟩
  · intro h
    obtain ⟨t, ht⟩ := add_remove_items_ops_issued_ex ok (m.items_separator.getD " ")
      (managerOps m)
    refine ⟨t, ?_⟩
    rw [show add_remove_items_manager ok m
        = add_remove_items_ops ok (m.items_separator.getD " ") (managerOps m) from rfl, ht]
    simp [managerOps, h, opsCommands]
  · intro h
    obtain ⟨t, ht⟩ := add_remove_items_ops_issued_ex ok (m.items_separator.getD " ")
      (managerOps m)
    refine ⟨t, ?_⟩
    rw [show add_remove_items_manager ok m
        = add_remove_items_ops ok (m.items_separator.getD " ") (managerOps m) from rfl, ht]
    simp [managerOps, h, opsCommands]
  · intro h
    simp [opCommands, h]
  · intro h
    simp [opCommands, h]

/-- Witness for C5: the default ordering on a concrete manager with
non-empty add and remove sets. -/
theorem c5_add_before_remove_witness :
    ∃ t, (add_remove_items_manager okAll mgrExec).1 ++ t
      = opCommands (mgrExec.items_separator.getD " ") (mgrExec.add, mgrExec.items_to_add)
        ++ opCommands (mgrExec.items_separator.getD " ")
            (mgrExec.remove, mgrExec.items_to_remove) :=
  (c5_add_before_remove okAll mgrExec).1 rfl

/-- Claim C6: when the template contains the literal `<item>`, exactly
one shell command is issued per item, with `<item>` replaced by the
item's text verbatim; if every per-item command succeeds all of them
run, and a failing command is the last one issued — the remaining
items' commands are never executed. -/
theorem c6_per_item_substitution (ok : String → Bool) (format_command : String)
    (items : List String) (items_separator : String)
    (hc : strContains format_command "<item>" = true) :
    fmt_run_command ok format_command items items_separator
        = runCommands ok (items.map fun item => strReplace format_command "<item>" item) ∧
    ((∀ c ∈ items.map (fun item => strReplace format_command "<item>" item), ok c = true) →
      fmt_run_command ok format_command items items_separator
        = (items.map (fun item => strReplace format_command "<item>" item), true)) ∧
    ((fmt_run_command ok format_command items items_separator).2 = false →
      ∃ pre c post,
        items.map (fun item => strReplace format_command "<item>" item) = pre ++ c :: post ∧
        (∀ x ∈ pre, ok x = true) ∧ ok c = false ∧
        (fmt_run_command ok format_command items items_separator).1 = pre ++ [c]) := by
  have h1 : fmt_run_command ok format_command items items_separator
      = runCommands ok (items.map fun item => strReplace format_command "<item>" item) := by
    rw [fmt_run_command, if_pos hc]
  refine ⟨h1, fun hall => h1.trans (runCommands_all_ok ok _ hall), fun hf => ?_⟩
  rw [h1] at hf
  obtain ⟨pre, c, post, hmap, hpre, hcf, hiss⟩ := runCommands_fail ok _ hf
  exact ⟨pre, c, post, hmap, hpre, hcf, by rw [h1, hiss]⟩

/-- Witness for C6: two items, all commands succeeding. -/
theorem c6_per_item_substitution_witness :
    fmt_run_command okAll "install <item>" ["x", "y"] " "
      = (["x", "y"].map (fun item => strReplace "install <item>" "<item>" item), true) :=
  (c6_per_item_substitution okAll "install <item>" ["x", "y"] " " (by decide)).2.1
    (fun _ _ => rfl)

/-- Claim C7: when the template contains `<items>` but not `<item>`,
exactly one shell command is issued, with `<items>` replaced by the
items joined with the manager's configured separator — a single space
when no separator is configured (`unwrap_or(" ")`); a template with
neither placeholder is a fatal configuration error issuing no command. -/
theorem c7_items_batch_substitution (ok : String → Bool) (format_command : String)
    (items : List String) (items_separator : String) (m : Manager) :
    (strContains format_command "<item>" = false →
      strContains format_command "<items>" = true →
      fmt_run_command ok format_command items items_separator
        = ([strReplace format_command "<items>" (strJoin items_separator items)],
            ok (strReplace format_command "<items>" (strJoin items_separator items)))) ∧
    (strContains format_command "<item>" = false →
      strContains format_command "<items>" = false →
      fmt_run_command ok format_command items items_separator = ([], false)) ∧
    (m.items_separator = none →
      add_remove_items_manager ok m = add_remove_items_ops ok " " (managerOps m)) := by
  refine ⟨fun h1 h2 => ?_, fun h1 h2 => ?_, fun hsep => ?_⟩
  · rw [fmt_run_command, if_neg (by simp [h1]), if_pos h2]
    cases h : ok (strReplace format_command "<items>" (strJoin items_separator items))
    · rw [runCommands, if_neg (by simp [h])]
    · rw [runCommands, if_pos (by simp [h])]
      rfl
  · rw [fmt_run_command, if_neg (by simp [h1]), if_neg (by simp [h2])]
  · rw [show add_remove_items_manager ok m
        = add_remove_items_ops ok (m.items_separator.getD " ") (managerOps m) from rfl, hsep]
    rfl

/-- Witness for C7: one batch command, comma separator. -/
theorem c7_items_batch_substitution_witness :
    fmt_run_command okAll "install <items>" ["x", "y"] ","
      = ([strReplace "install <items>" "<items>" (strJoin "," ["x", "y"])],
          okAll (strReplace "install <items>" "<items>" (strJoin "," ["x", "y"]))) :=
  (c7_items_batch_substitution okAll "install <items>" ["x", "y"] "," mgrA).1
    (by decide) (by decide)
